import Mathlib

/-!
Shallow embedding of the Stauffer-Grimson foreground detector
(`ForegroundDetectorFunctor.hpp`, `WeightedGaussian.hpp`,
`ForegroundDetectorImpl.cpp`) over exact rational arithmetic.

A pixel value is the list of its channel samples; a pixel's mixture model is
the list of its weighted Gaussians in stored (ranked) order.  Machine floats
of the source (`stat_type`) are modelled by `ℚ`; `VISION_ASSERT` failures are
modelled by `Option` results (`none` = the assertion fires).
-/

namespace FGD

/-- One mixture component, as in `WeightedGaussian.hpp`: a scalar weight and
per-channel mean and variance vectors. -/
structure WeightedGaussian where
  weight : ℚ
  mean : List ℚ
  variance : List ℚ
  deriving Repr, DecidableEq, Inhabited

namespace WeightedGaussian

/-- Sum of the per-channel variances (`std::accumulate` over `mVariance`). -/
def sumVar (g : WeightedGaussian) : ℚ := g.variance.sum

/-- Summed squared per-channel distance of a pixel to a mean vector
(the loop body of `WeightedGaussian::isMatch`). -/
def sqDist (pixel mean : List ℚ) : ℚ :=
  (List.zipWith (fun p m => (p - m) * (p - m)) pixel mean).sum

/-- `WeightedGaussian::isMatch`: the summed squared distance is strictly
below `threshold` times the summed variance. -/
def isMatch (g : WeightedGaussian) (pixel : List ℚ) (threshold : ℚ) : Bool :=
  decide (sqDist pixel g.mean < threshold * sumVar g)

/-- `WeightedGaussian::update`: per channel `d = pixel_c - mean_c`,
`mean_c += α·d`, `variance_c += α·(d² - variance_c)`; then
`weight += α·(1 - weight)`. -/
def update (g : WeightedGaussian) (pixel : List ℚ) (α : ℚ) : WeightedGaussian :=
  { weight := g.weight + α * (1 - g.weight)
    mean := List.zipWith (fun m p => m + α * (p - m)) g.mean pixel
    variance :=
      List.zipWith (fun mv p => mv.2 + α * ((p - mv.1) * (p - mv.1) - mv.2))
        (g.mean.zip g.variance) pixel }

/-- `WeightedGaussian::scaleWeight`: multiply the weight in place. -/
def scaleWeight (g : WeightedGaussian) (factor : ℚ) : WeightedGaussian :=
  { g with weight := g.weight * factor }

/-- The comparison `a.rank() > b.rank()` of `WeightedGaussian::operator>`,
where `rank() = weight / sqrt(sum(variance))`.  Over `ℚ` the square root is
not available, so the comparison is carried out by sign analysis and
squaring; `rankGt_iff_real` below proves this equals the source's real
comparison whenever both variance sums are positive (the source enforces
variance > 0 at construction). -/
def rankGt (a b : WeightedGaussian) : Bool :=
  if 0 < a.weight then
    if b.weight ≤ 0 then true
    else decide (b.weight * b.weight * sumVar a < a.weight * a.weight * sumVar b)
  else if 0 ≤ b.weight then false
  else decide (a.weight * a.weight * sumVar b < b.weight * b.weight * sumVar a)

end WeightedGaussian

open WeightedGaussian

/-- A pixel's Gaussian mixture model: the components in stored order. -/
abbrev GMM := List WeightedGaussian

/-- Total weight of a model's components. -/
def sumWeights (gmm : GMM) : ℚ := (gmm.map WeightedGaussian.weight).sum

/-- Detector configuration fixed at initialization. -/
structure Config where
  numGaussians : ℕ
  initialVariance : ℚ
  initialWeight : ℚ
  varianceThreshold : ℚ
  minBackgroundRatio : ℚ
  deriving Repr, DecidableEq, Inhabited

/-- The scan loop of `ForegroundDetectorFunctor::findMatch`, carrying the
index of the component under inspection. -/
def findMatchFrom (pixel : List ℚ) (threshold : ℚ) : GMM → ℕ → Option ℕ
  | [], _ => none
  | g :: rest, i =>
    if isMatch g pixel threshold then some i
    else findMatchFrom pixel threshold rest (i + 1)

/-- `ForegroundDetectorFunctor::findMatch`: index of the first component the
pixel matches, `none` when no component matches (the `gmm.end()` result). -/
def findMatch (gmm : GMM) (pixel : List ℚ) (threshold : ℚ) : Option ℕ :=
  findMatchFrom pixel threshold gmm 0

/-- `ForegroundDetectorFunctor::normalizeWeights`: scale every component's
weight by `scaleFactor`. -/
def normalizeWeights (gmm : GMM) (scaleFactor : ℚ) : GMM :=
  gmm.map (fun g => scaleWeight g scaleFactor)

/-- `ForegroundDetectorFunctor::sortGaussians`: percolate the component at
the given index upward, swapping it with its predecessor while it ranks
strictly higher; returns the list and the component's final index. -/
def sortGaussians : GMM → ℕ → GMM × ℕ
  | gmm, 0 => (gmm, 0)
  | gmm, j + 1 =>
    match gmm[j + 1]?, gmm[j]? with
    | some m, some p =>
      if rankGt m p then sortGaussians ((gmm.set j m).set (j + 1) p) j
      else (gmm, j + 1)
    | _, _ => (gmm, j + 1)

/-- `ForegroundDetectorFunctor::findMatchAndUpdate`: match-and-update a
pixel against its model, returning the new model and the index of the
matched (or created) component.  The three branches mirror the source: a
match updates the component, percolates it up and scales by
`1/(1 + α·(1 - w))`; no match pops the last component when the model is at
capacity, appends a fresh component at the pixel value, and scales by
`1/w` when the result is a single component, else `1/(1 + w)`, where `w` is
`initialWeight` minus any popped weight. -/
def findMatchAndUpdate (cfg : Config) (gmm : GMM) (pixel : List ℚ)
    (learningRate : ℚ) : GMM × ℕ :=
  match findMatch gmm pixel cfg.varianceThreshold with
  | some i =>
    let g := gmm.getD i default
    let scaleFactor := 1 / (1 + learningRate * (1 - g.weight))
    let gmm1 := gmm.set i (update g pixel learningRate)
    let s := sortGaussians gmm1 i
    (normalizeWeights s.1 scaleFactor, s.2)
  | none =>
    let atCap : Bool := decide (gmm ≠ [] ∧ gmm.length = cfg.numGaussians)
    let w : ℚ :=
      if atCap then cfg.initialWeight - ((gmm.getLast?).getD default).weight
      else cfg.initialWeight
    let gmm1 := if atCap then gmm.dropLast else gmm
    let fresh : WeightedGaussian :=
      { weight := cfg.initialWeight
        mean := pixel
        variance := List.replicate pixel.length cfg.initialVariance }
    let gmm2 := gmm1 ++ [fresh]
    let scaleFactor := if gmm2.length = 1 then 1 / w else 1 / (1 + w)
    (normalizeWeights gmm2 scaleFactor, gmm2.length - 1)

/-- The accumulation loop of `ForegroundDetectorFunctor::isForeground`:
walks the components from index `i` with running weight sum `wSum`.
`none` models the `VISION_ASSERT(false)` reached when the walk falls off
the end of the list. -/
def fgWalk (minBGRatio eps : ℚ) (matchIdx : ℕ) : GMM → ℕ → ℚ → Option Bool
  | [], _, _ => none
  | g :: rest, i, wSum =>
    let wSum2 := wSum + g.weight
    if minBGRatio - wSum2 ≤ eps then some (decide (matchIdx ≠ i))
    else if matchIdx = i then some false
    else fgWalk minBGRatio eps matchIdx rest (i + 1) wSum2

/-- `ForegroundDetectorFunctor::isForeground`: `some true` = foreground,
`some false` = background, `none` = the internal-consistency assertion
fires (end of list reached).  `eps` stands for the machine epsilon the
source compares against (`mfl_scalar::Eps<stat_type>(1.0)`). -/
def isForeground (minBGRatio eps : ℚ) (gmm : GMM) (matchIdx : ℕ) :
    Option Bool :=
  if matchIdx = 0 then some false
  else fgWalk minBGRatio eps matchIdx gmm 0 0

/-- `ForegroundDetectorFunctor::detectForeground`: one full per-pixel step
on one model, returning the classification and the updated model. -/
def detectForeground (cfg : Config) (eps : ℚ) (gmm : GMM) (pixel : List ℚ)
    (learningRate : ℚ) : Option Bool × GMM :=
  let s := findMatchAndUpdate cfg gmm pixel learningRate
  (isForeground cfg.minBackgroundRatio eps s.1 s.2, s.1)

/-! ### Declarative restatement of the classification rule (for the
refinement claim about `isForeground`): prefix weight sums and the first
index crossing the minimum-background-ratio threshold. -/

/-- Sum of the weights of the first `k` components. -/
def takeWeightSum (gmm : GMM) (k : ℕ) : ℚ := sumWeights (gmm.take k)

/-- First index `i` at which the cumulative weight of components `0..i`
crosses the threshold, i.e. `minBGRatio - weightSum ≤ eps`. -/
def crossIdx (minBGRatio eps : ℚ) (gmm : GMM) : Option ℕ :=
  (List.range gmm.length).find?
    (fun i => decide (minBGRatio - takeWeightSum gmm (i + 1) ≤ eps))

/-- The classification rule as the specification words it: background when
the matched component is at index 0; otherwise background iff the matched
component lies within the prefix ending at the first threshold-crossing
index; background when the matched component is reached with no crossing;
diagnostic failure (`none`) when the walk would fall off the list. -/
def isForegroundSpec (minBGRatio eps : ℚ) (gmm : GMM) (matchIdx : ℕ) :
    Option Bool :=
  if matchIdx = 0 then some false
  else
    match crossIdx minBGRatio eps gmm with
    | some i => some (decide (i < matchIdx))
    | none => if matchIdx < gmm.length then some false else none

/-- Sorted by non-increasing `rank()`: no component ranks strictly higher
than its predecessor. -/
def SortedByRank (gmm : GMM) : Prop :=
  List.Chain' (fun a b => rankGt b a = false) gmm

instance (gmm : GMM) : Decidable (SortedByRank gmm) := by
  unfold SortedByRank; infer_instance

/-- Structural form of the percolate-up loop of `sortGaussians`: `insUp R m`
walks the reversed prefix `R` (nearest predecessor first), passing over
each element that `m` outranks; it returns the rebuilt reversed-prefix-plus-
element and the number of elements passed. -/
def insUp : List WeightedGaussian → WeightedGaussian → List WeightedGaussian × ℕ
  | [], m => ([m], 0)
  | p :: R, m =>
    if rankGt m p then
      let r := insUp R m
      (p :: r.1, r.2 + 1)
    else (m :: p :: R, 0)

/-! ### Lifecycle (`ForegroundDetectorImpl::initializeImpl` and
`ForegroundDetectorFunctor::setup`). -/

/-- `ForegroundDetectorFunctor::setup`: derives `(numPixels, numChannels)`
from the dims vector; `VISION_ASSERT(dims.size() >= 2)` is modelled as
`none`. -/
def setupDims (dims : List ℕ) : Option (ℕ × ℕ) :=
  if 2 ≤ dims.length then
    some (dims.getD 0 0 * dims.getD 1 0,
          if 2 < dims.length then dims.getD 2 0 else 1)
  else none

/-- Detector state after a successful initialization. -/
structure DetectorState where
  cfg : Config
  numPixels : ℕ
  numChannels : ℕ
  store : List GMM
  deriving Repr, DecidableEq, Inhabited

/-- `ForegroundDetectorImpl::initializeImpl`: runs `setup`, records the
configuration and allocates one empty mixture model per pixel.  Note the
source performs no validation of `numGaussians` or the other numeric
parameters. -/
def initDetector (dims : List ℕ) (cfg : Config) : Option DetectorState :=
  match setupDims dims with
  | none => none
  | some nn => some ⟨cfg, nn.1, nn.2, List.replicate nn.1 []⟩

/-- Repeated per-pixel updates of one pixel's model from a sequence of
observed pixel values, starting from the empty model a fresh detector
holds. -/
def stepFold (cfg : Config) (learningRate : ℚ) (pxs : List (List ℚ)) : GMM :=
  pxs.foldl (fun gmm px => (findMatchAndUpdate cfg gmm px learningRate).1) []

/-! ### The frame-level step (`runAlgorithm` / `stepImpl`): column-major
pixel addressing, per-pixel kernel, parallel chunking. -/

/-- Column-major channel gather: channel `c` of pixel `id` lives at flat
offset `id + numPixels·c` (the `offset += numPixels` loops of the source). -/
def pixelAt (image : ℕ → ℚ) (numPixels numChannels : ℕ) (id : ℕ) : List ℚ :=
  (List.range numChannels).map fun c => image (id + numPixels * c)

/-- The body of `runAlgorithm` for one pixel index: reads the pixel's model
and channels, runs `detectForeground`, writes the model back and writes the
mask bit.  The mask bit after the modelled `VISION_ASSERT` is the
`return !isForeground` of the source (background). -/
def processPixel (cfg : Config) (eps : ℚ) (image : ℕ → ℚ)
    (numPixels numChannels : ℕ) (learningRate : ℚ)
    (s : List GMM × List Bool) (id : ℕ) : List GMM × List Bool :=
  let r := findMatchAndUpdate cfg (s.1.getD id [])
    (pixelAt image numPixels numChannels id) learningRate
  let fg := (isForeground cfg.minBackgroundRatio eps r.1 r.2).getD false
  (s.1.set id r.1, s.2.set id fg)

/-- `runAlgorithm` over a list of pixel indices (a TBB sub-range is the
contiguous `List.range' begin size`). -/
def runPixels (cfg : Config) (eps : ℚ) (image : ℕ → ℚ)
    (numPixels numChannels : ℕ) (learningRate : ℚ)
    (s : List GMM × List Bool) (ids : List ℕ) : List GMM × List Bool :=
  ids.foldl (processPixel cfg eps image numPixels numChannels learningRate) s

/-- A parallel `stepImpl` schedule: the chunks `(begin, end)` executed one
after the other, each chunk running `runAlgorithm` on `[begin, end)`. -/
def runChunks (cfg : Config) (eps : ℚ) (image : ℕ → ℚ)
    (numPixels numChannels : ℕ) (learningRate : ℚ)
    (s : List GMM × List Bool) (chunks : List (ℕ × ℕ)) :
    List GMM × List Bool :=
  chunks.foldl
    (fun s c =>
      runPixels cfg eps image numPixels numChannels learningRate s
        (List.range' c.1 (c.2 - c.1))) s

/-! ### State export/import (`getStatesImpl` / `setStatesImpl`): the flat
strided arrays are modelled as total maps from flat index to value. -/

/-- The four caller-supplied state arrays. -/
structure StateArrays where
  weights : ℕ → ℚ
  means : ℕ → ℚ
  variances : ℕ → ℚ
  numActive : ℕ → ℕ

/-- `WeightedGaussian::copyStat`: write the entries of `vals` at
`base, base + stride, base + 2·stride, …`. -/
def writeStrided : (ℕ → ℚ) → ℕ → ℕ → List ℚ → (ℕ → ℚ)
  | f, _, _, [] => f
  | f, base, stride, v :: vs =>
    writeStrided (Function.update f base v) (base + stride) stride vs

/-- The Gaussian loop of `ForegroundDetectorImpl::getGMMStates`: walking
the components with running Gaussian index `i`, writes Gaussian `i`'s
weight at `p + numPixels·i` and its per-channel mean/variance at
`p + numPixels·numChannels·i + numPixels·c` (the `weight_offset +=
numPixels` / `means += statOffset` pointer advances of the source). -/
def writeGaussians (numPixels numChannels p : ℕ) :
    List WeightedGaussian → ℕ → StateArrays → StateArrays
  | [], _, a => a
  | g :: rest, i, a =>
    writeGaussians numPixels numChannels p rest (i + 1)
      { weights := Function.update a.weights (p + numPixels * i) g.weight
        means := writeStrided a.means (p + numPixels * numChannels * i)
          numPixels g.mean
        variances := writeStrided a.variances
          (p + numPixels * numChannels * i) numPixels g.variance
        numActive := a.numActive }

/-- `ForegroundDetectorImpl::getGMMStates` for the pixel at linear index
`p`: record the active count, then write every Gaussian. -/
def getGMMStates (numPixels numChannels p : ℕ) (gmm : GMM)
    (a : StateArrays) : StateArrays :=
  writeGaussians numPixels numChannels p gmm 0
    { a with numActive := Function.update a.numActive p gmm.length }

/-- The pixel loop of `ForegroundDetectorImpl::getStatesImpl`, carrying the
running pixel index. -/
def writePixels (numPixels numChannels : ℕ) :
    List GMM → ℕ → StateArrays → StateArrays
  | [], _, a => a
  | gmm :: rest, p, a =>
    writePixels numPixels numChannels rest (p + 1)
      (getGMMStates numPixels numChannels p gmm a)

/-- `ForegroundDetectorImpl::getStatesImpl`: every pixel's model written
into the arrays. -/
def getStatesImpl (numPixels numChannels : ℕ) (store : List GMM)
    (a : StateArrays) : StateArrays :=
  writePixels numPixels numChannels store 0 a

/-- The strided-pointer constructor `WeightedGaussian(numChannels,
numPixels, weight, mean, variance)`: reads one Gaussian back from the
arrays. -/
def readGaussian (numPixels numChannels p g : ℕ) (a : StateArrays) :
    WeightedGaussian :=
  { weight := a.weights (p + numPixels * g)
    mean := (List.range numChannels).map
      (fun c => a.means (p + numPixels * numChannels * g + numPixels * c))
    variance := (List.range numChannels).map
      (fun c => a.variances (p + numPixels * numChannels * g + numPixels * c)) }

/-- `ForegroundDetectorImpl::setGMMStates` into the empty model a freshly
initialized detector holds at pixel `p`: push `numActive p` Gaussians read
from the arrays. -/
def setGMMStates (numPixels numChannels p : ℕ) (a : StateArrays) : GMM :=
  (List.range (a.numActive p)).map
    (fun g => readGaussian numPixels numChannels p g a)

/-- `ForegroundDetectorImpl::setStatesImpl` on a freshly initialized
detector: every pixel's model rebuilt from the arrays. -/
def setStatesImpl (numPixels numChannels : ℕ) (a : StateArrays) : List GMM :=
  (List.range numPixels).map (fun p => setGMMStates numPixels numChannels p a)

/-! ## Theorems -/

lemma sumWeights_cons (g : WeightedGaussian) (l : GMM) :
    sumWeights (g :: l) = g.weight + sumWeights l := by
  simp [sumWeights]

lemma findMatchFrom_ge (pixel : List ℚ) (thr : ℚ) :
    ∀ (l : GMM) (k m : ℕ), findMatchFrom pixel thr l k = some m → k ≤ m := by
  intro l
  induction l with
  | nil => intro k m h; simp [findMatchFrom] at h
  | cons g rest ih =>
    intro k m h
    by_cases hg : isMatch g pixel thr
    · simp [findMatchFrom, hg] at h; omega
    · simp [findMatchFrom, hg] at h
      have := ih (k + 1) m h
      omega

lemma findMatchFrom_some_iff (pixel : List ℚ) (thr : ℚ) :
    ∀ (l : GMM) (k i : ℕ),
      findMatchFrom pixel thr l k = some (k + i) ↔
        i < l.length ∧ isMatch (l.getD i default) pixel thr = true ∧
          ∀ j, j < i → isMatch (l.getD j default) pixel thr = false := by
  intro l
  induction l with
  | nil => intro k i; simp [findMatchFrom]
  | cons g rest ih =>
    intro k i
    by_cases hg : isMatch g pixel thr
    · simp only [findMatchFrom]
      rw [if_pos hg]
      constructor
      · intro h
        have : i = 0 := by
          have := Option.some.inj h; omega
        subst this
        exact ⟨by simp, by simpa using hg, by omega⟩
      · rintro ⟨h1, h2, h3⟩
        match i with
        | 0 => simp
        | j + 1 =>
          have := h3 0 (by omega)
          simp at this
          exact absurd hg (by simp [this])
    · simp only [findMatchFrom]
      rw [if_neg hg]
      match i with
      | 0 =>
        constructor
        · intro h
          have := findMatchFrom_ge pixel thr rest (k + 1) (k + 0) h
          omega
        · rintro ⟨h1, h2, h3⟩
          simp at h2
          exact absurd h2 (by simp [hg])
      | j + 1 =>
        have heq : k + (j + 1) = (k + 1) + j := by omega
        rw [heq, ih (k + 1) j]
        constructor
        · rintro ⟨h1, h2, h3⟩
          refine ⟨by simpa using h1, by simpa using h2, ?_⟩
          intro j' hj'
          match j' with
          | 0 => simpa using (by simpa using hg : isMatch g pixel thr = false)
          | j'' + 1 => simpa using h3 j'' (by omega)
        · rintro ⟨h1, h2, h3⟩
          refine ⟨by simpa using h1, by simpa using h2, ?_⟩
          intro j' hj'
          simpa using h3 (j' + 1) (by omega)

lemma findMatchFrom_none_iff (pixel : List ℚ) (thr : ℚ) :
    ∀ (l : GMM) (k : ℕ),
      findMatchFrom pixel thr l k = none ↔
        ∀ j, j < l.length → isMatch (l.getD j default) pixel thr = false := by
  intro l
  induction l with
  | nil => intro k; simp [findMatchFrom]
  | cons g rest ih =>
    intro k
    by_cases hg : isMatch g pixel thr
    · simp only [findMatchFrom]
      rw [if_pos hg]
      constructor
      · intro h; exact absurd h (by simp)
      · intro h
        have := h 0 (by simp)
        simp at this
        exact absurd hg (by simp [this])
    · simp only [findMatchFrom]
      rw [if_neg hg]
      rw [ih (k + 1)]
      constructor
      · intro h j hj
        match j with
        | 0 => simpa using (by simpa using hg : isMatch g pixel thr = false)
        | j' + 1 => simpa using h j' (by simpa using hj)
      · intro h j hj
        simpa using h (j + 1) (by simpa using hj)

/-- C1: the weight-conservation claim fails on the code at the concrete
failing input `numGaussians = 1`, single component of weight 1 (total
weight exactly 1), and a non-matching pixel: the evict-and-replace branch
derives `scaleFactor = 1/weight` with `weight = initialWeight - 1`, and the
total weight after `normalizeWeights` is `-1/19`, not 1. -/
theorem evict_at_capacity_one_breaks_weight_sum :
    sumWeights [({ weight := 1, mean := [0], variance := [36] } : WeightedGaussian)] = 1 ∧
    sumWeights (findMatchAndUpdate ⟨1, 36, 1/20, 5/2, 7/10⟩
      [{ weight := 1, mean := [0], variance := [36] }] [200] (1/20)).1 = -1/19 := by
  constructor
  · norm_num [sumWeights]
  · norm_num [sumWeights, findMatchAndUpdate, findMatch, findMatchFrom, isMatch, sqDist,
      WeightedGaussian.sumVar, normalizeWeights, scaleWeight]

/-- C3: `findMatch` returns the index of the first component (in stored
order) whose summed squared per-channel distance to the pixel is strictly
below `threshold` times the component's summed variance, and returns `none`
exactly when no component satisfies that inequality. -/
theorem findMatch_first_match_semantics (gmm : GMM) (pixel : List ℚ) (thr : ℚ) :
    (∀ i, findMatch gmm pixel thr = some i ↔
      i < gmm.length ∧
        (List.zipWith (fun p m => (p - m) * (p - m)) pixel
            (gmm.getD i default).mean).sum < thr * (gmm.getD i default).variance.sum ∧
        ∀ j, j < i →
          ¬ (List.zipWith (fun p m => (p - m) * (p - m)) pixel
              (gmm.getD j default).mean).sum < thr * (gmm.getD j default).variance.sum) ∧
    (findMatch gmm pixel thr = none ↔
      ∀ j, j < gmm.length →
        ¬ (List.zipWith (fun p m => (p - m) * (p - m)) pixel
            (gmm.getD j default).mean).sum < thr * (gmm.getD j default).variance.sum) := by
  constructor
  · intro i
    have h := findMatchFrom_some_iff pixel thr gmm 0 i
    rw [show (0 : ℕ) + i = i by omega] at h
    rw [findMatch, h]
    simp [isMatch, sqDist, WeightedGaussian.sumVar]
  · have h := findMatchFrom_none_iff pixel thr gmm 0
    rw [findMatch, h]
    simp [isMatch, sqDist, WeightedGaussian.sumVar]

lemma fgWalk_eq (minBG eps : ℚ) (matchIdx : ℕ) :
    ∀ (l : GMM) (i : ℕ) (acc : ℚ), i ≤ matchIdx →
      fgWalk minBG eps matchIdx l i acc =
        (match (List.range l.length).find?
            (fun d => decide (minBG - (acc + sumWeights (l.take (d + 1))) ≤ eps)) with
         | some d => some (decide (i + d < matchIdx))
         | none => if matchIdx < i + l.length then some false else none) := by
  intro l
  induction l with
  | nil =>
    intro i acc hi
    simp only [fgWalk, List.length_nil, List.range_zero, List.find?_nil]
    rw [if_neg (by omega)]
  | cons g rest ih =>
    intro i acc hi
    have hstep : fgWalk minBG eps matchIdx (g :: rest) i acc =
        if minBG - (acc + g.weight) ≤ eps then some (decide (matchIdx ≠ i))
        else if matchIdx = i then some false
        else fgWalk minBG eps matchIdx rest (i + 1) (acc + g.weight) := rfl
    rw [hstep, List.length_cons, List.range_succ_eq_map, List.find?_cons]
    by_cases hc : minBG - (acc + g.weight) ≤ eps
    · rw [if_pos hc]
      have hp0 : decide (minBG - (acc + sumWeights (List.take (0 + 1) (g :: rest))) ≤ eps) = true := by
        simp [sumWeights, hc]
      rw [hp0]
      congr 1
      exact decide_eq_decide.mpr (by omega)
    · rw [if_neg hc]
      have hp0 : decide (minBG - (acc + sumWeights (List.take (0 + 1) (g :: rest))) ≤ eps) = false := by
        simp [sumWeights, hc]
      rw [hp0]
      rw [List.find?_map]
      have hpred : ((fun d => decide (minBG - (acc + sumWeights ((g :: rest).take (d + 1))) ≤ eps)) ∘ Nat.succ)
          = (fun d => decide (minBG - ((acc + g.weight) + sumWeights (rest.take (d + 1))) ≤ eps)) := by
        funext d
        simp only [Function.comp]
        congr 1
        rw [show Nat.succ d + 1 = d + 1 + 1 from rfl]
        rw [List.take_succ_cons, sumWeights_cons, add_assoc]
      rw [hpred]
      by_cases hm : matchIdx = i
      · rw [if_pos hm]
        cases hf : (List.range rest.length).find?
            (fun d => decide (minBG - ((acc + g.weight) + sumWeights (rest.take (d + 1))) ≤ eps)) with
        | none =>
          rw [if_pos (show matchIdx < i + (rest.length + 1) by omega)]
          rfl
        | some d =>
          show some false = some (decide (i + Nat.succ d < matchIdx))
          have : decide (i + Nat.succ d < matchIdx) = false := by
            simp only [decide_eq_false_iff_not]
            omega
          rw [this]
      · rw [if_neg hm]
        rw [ih (i + 1) (acc + g.weight) (by omega)]
        cases hf : (List.range rest.length).find?
            (fun d => decide (minBG - ((acc + g.weight) + sumWeights (rest.take (d + 1))) ≤ eps)) with
        | none =>
          have harith : i + 1 + rest.length = i + (rest.length + 1) := by omega
          rw [harith]
          rfl
        | some d =>
          show some (decide (i + 1 + d < matchIdx)) = some (decide (i + Nat.succ d < matchIdx))
          congr 1
          exact decide_eq_decide.mpr (by omega)

/-- C2: the classification rule of `isForeground` equals its declarative
restatement: background when the matched component is at index 0;
otherwise, walking the components in stored order, the pixel is background
iff the matched component lies within the prefix ending at the first index
where `minBackgroundRatio - weightSum ≤ eps`, and reaching the matched
component before the crossing classifies background; in particular a
single-component model whose component matches is classified background. -/
theorem isForeground_matches_spec (minBG eps : ℚ) (gmm : GMM) (matchIdx : ℕ)
    (h : matchIdx < gmm.length) :
    isForeground minBG eps gmm matchIdx = isForegroundSpec minBG eps gmm matchIdx ∧
    ∀ g : WeightedGaussian, isForeground minBG eps [g] 0 = some false := by
  refine ⟨?_, fun g => rfl⟩
  by_cases h0 : matchIdx = 0
  · subst h0; rfl
  · rw [isForeground, if_neg h0, isForegroundSpec, if_neg h0]
    rw [fgWalk_eq minBG eps matchIdx gmm 0 0 (by omega)]
    have hpred : (fun d => decide (minBG - ((0 : ℚ) + sumWeights (gmm.take (d + 1))) ≤ eps))
        = (fun i => decide (minBG - takeWeightSum gmm (i + 1) ≤ eps)) := by
      funext d
      rw [zero_add]
      rfl
    rw [hpred]
    rw [crossIdx]
    cases hf : (List.range gmm.length).find?
        (fun i => decide (minBG - takeWeightSum gmm (i + 1) ≤ eps)) with
    | some d =>
      show some (decide (0 + d < matchIdx)) = some (decide (d < matchIdx))
      congr 1
      exact decide_eq_decide.mpr (by omega)
    | none =>
      show (if matchIdx < 0 + gmm.length then some false else none)
          = if matchIdx < gmm.length then some false else none
      rw [if_pos (by omega), if_pos (by omega)]

/-- C2 witness: the theorem applied at a concrete three-component model
with the matched component at index 2. -/
theorem isForeground_matches_spec_witness :
    isForeground (7/10) 0
        [⟨6/10, [0], [1]⟩, ⟨3/10, [5], [1]⟩, ⟨1/10, [9], [1]⟩] 2 =
      isForegroundSpec (7/10) 0
        [⟨6/10, [0], [1]⟩, ⟨3/10, [5], [1]⟩, ⟨1/10, [9], [1]⟩] 2 ∧
    ∀ g : WeightedGaussian, isForeground (7/10) 0 [g] 0 = some false :=
  isForeground_matches_spec (7/10) 0
    [⟨6/10, [0], [1]⟩, ⟨3/10, [5], [1]⟩, ⟨1/10, [9], [1]⟩] 2 (by norm_num)

/-- C7: when `isForeground` would walk the entire component list without
the cumulative weight crossing the minimum-background-ratio threshold and
without reaching the matched component, the result is `none`: the
`VISION_ASSERT(false)` internal-consistency failure fires instead of a
silently produced classification. -/
theorem isForeground_walkoff_none (minBG eps : ℚ) (gmm : GMM) (matchIdx : ℕ)
    (h0 : matchIdx ≠ 0)
    (hend : gmm.length ≤ matchIdx)
    (hnocross : ∀ k, k < gmm.length → eps < minBG - takeWeightSum gmm (k + 1)) :
    isForeground minBG eps gmm matchIdx = none := by
  rw [isForeground, if_neg h0]
  rw [fgWalk_eq minBG eps matchIdx gmm 0 0 (by omega)]
  have hnone : (List.range gmm.length).find?
      (fun d => decide (minBG - ((0 : ℚ) + sumWeights (gmm.take (d + 1))) ≤ eps)) = none := by
    refine List.find?_eq_none.mpr ?_
    intro d hd
    have hd' : d < gmm.length := List.mem_range.mp hd
    have := hnocross d hd'
    simp only [zero_add, decide_eq_true_eq]
    rw [show sumWeights (gmm.take (d + 1)) = takeWeightSum gmm (d + 1) from rfl]
    intro hcon
    exact absurd hcon (by linarith)
  rw [hnone]
  rw [if_neg (by omega)]

lemma length_normalizeWeights (l : GMM) (s : ℚ) :
    (normalizeWeights l s).length = l.length := by
  simp [normalizeWeights]

lemma sortGaussians_length : ∀ (i : ℕ) (l : GMM),
    (sortGaussians l i).1.length = l.length := by
  intro i
  induction i with
  | zero => intro l; rfl
  | succ j ih =>
    intro l
    simp only [sortGaussians]
    cases h1 : l[j + 1]? with
    | none => rfl
    | some m =>
      cases h2 : l[j]? with
      | none => rfl
      | some p =>
        dsimp only
        by_cases hr : rankGt m p
        · rw [if_pos hr]
          rw [ih ((l.set j m).set (j + 1) p)]
          simp
        · rw [if_neg hr]

/-- C7 witness: a one-component model of weight 1/10 with the matched
index past the end never crosses the 7/10 threshold. -/
theorem isForeground_walkoff_none_witness :
    isForeground (7/10) 0 [⟨1/10, [0], [1]⟩] 1 = none :=
  isForeground_walkoff_none (7/10) 0 [⟨1/10, [0], [1]⟩] 1 (by norm_num) (by norm_num)
    (by
      intro k hk
      have hk0 : k = 0 := by simpa using hk
      subst hk0
      norm_num [takeWeightSum, sumWeights])

lemma normalizeWeights_map_stats (l : GMM) (s : ℚ) :
    (normalizeWeights l s).map (fun g => (g.mean, g.variance)) =
      l.map (fun g => (g.mean, g.variance)) := by
  induction l with
  | nil => rfl
  | cons a t ih =>
    show (a.mean, a.variance) :: (normalizeWeights t s).map (fun g => (g.mean, g.variance))
        = (a.mean, a.variance) :: t.map (fun g => (g.mean, g.variance))
    rw [ih]

lemma findMatchAndUpdate_length (cfg : Config) (gmm : GMM) (pixel : List ℚ) (α : ℚ)
    (h1 : 1 ≤ cfg.numGaussians) (hlen : gmm.length ≤ cfg.numGaussians) :
    (findMatchAndUpdate cfg gmm pixel α).1.length ≤ cfg.numGaussians := by
  rw [findMatchAndUpdate]
  cases hm : findMatch gmm pixel cfg.varianceThreshold with
  | some i =>
    dsimp only
    rw [length_normalizeWeights, sortGaussians_length]
    simpa using hlen
  | none =>
    dsimp only
    rw [length_normalizeWeights]
    by_cases hcap : gmm ≠ [] ∧ gmm.length = cfg.numGaussians
    · rw [if_pos (by simpa using hcap)]
      have hne : gmm ≠ [] := hcap.1
      have : gmm.dropLast.length = gmm.length - 1 := by simp
      simp only [List.length_append, List.length_cons, List.length_nil, this]
      have hpos : 1 ≤ gmm.length := List.length_pos.mpr hne
      omega
    · rw [if_neg (by simpa using hcap)]
      simp only [List.length_append, List.length_cons, List.length_nil]
      rcases Decidable.em (gmm = []) with he | he
      · subst he; simpa using h1
      · have : gmm.length ≠ cfg.numGaussians := fun hc => hcap ⟨he, hc⟩
        omega

/-- C5: capacity invariant.  A single `findMatchAndUpdate` preserves
`length ≤ numGaussians` (for `numGaussians ≥ 1`); any sequence of updates
starting from the empty model a fresh detector holds stays within
capacity; and an unmatched observation arriving at capacity removes the
last (lowest-ranked) component before appending the new one. -/
theorem capacity_invariant (cfg : Config) (h1 : 1 ≤ cfg.numGaussians) :
    (∀ (gmm : GMM) (pixel : List ℚ) (α : ℚ), gmm.length ≤ cfg.numGaussians →
        (findMatchAndUpdate cfg gmm pixel α).1.length ≤ cfg.numGaussians) ∧
    (∀ (pxs : List (List ℚ)) (α : ℚ),
        (stepFold cfg α pxs).length ≤ cfg.numGaussians) ∧
    (∀ (gmm : GMM) (pixel : List ℚ) (α : ℚ),
        findMatch gmm pixel cfg.varianceThreshold = none →
        gmm ≠ [] → gmm.length = cfg.numGaussians →
        (findMatchAndUpdate cfg gmm pixel α).1.map (fun g => (g.mean, g.variance)) =
          gmm.dropLast.map (fun g => (g.mean, g.variance)) ++
            [(pixel, List.replicate pixel.length cfg.initialVariance)]) := by
  refine ⟨fun gmm pixel α h => findMatchAndUpdate_length cfg gmm pixel α h1 h, ?_, ?_⟩
  · intro pxs α
    suffices hgen : ∀ (l : List (List ℚ)) (gmm : GMM), gmm.length ≤ cfg.numGaussians →
        (l.foldl (fun gmm px => (findMatchAndUpdate cfg gmm px α).1) gmm).length ≤ cfg.numGaussians by
      exact hgen pxs [] (by simp)
    intro l
    induction l with
    | nil => intro gmm h; simpa using h
    | cons px rest ih =>
      intro gmm h
      exact ih _ (findMatchAndUpdate_length cfg gmm px α h1 h)
  · intro gmm pixel α hm hne hcap
    rw [findMatchAndUpdate, hm]
    dsimp only
    rw [if_pos (by simp [hne, hcap])]
    rw [normalizeWeights_map_stats]
    simp

/-- C5 witness: three frames through a capacity-3 configuration. -/
theorem capacity_invariant_witness :
    (stepFold ⟨3, 36, 1/20, 5/2, 7/10⟩ (1/20) [[128], [255], [64]]).length ≤ 3 :=
  (capacity_invariant ⟨3, 36, 1/20, 5/2, 7/10⟩ (by norm_num)).2.1 [[128], [255], [64]] (1/20)

lemma rankGt_iff_real (a b : WeightedGaussian)
    (ha : 0 < WeightedGaussian.sumVar a) (hb : 0 < WeightedGaussian.sumVar b) :
    rankGt a b = true ↔
      ((b.weight : ℝ) / Real.sqrt ((WeightedGaussian.sumVar b : ℚ) : ℝ) <
        (a.weight : ℝ) / Real.sqrt ((WeightedGaussian.sumVar a : ℚ) : ℝ)) := by
  have hsa : (0 : ℝ) < ((WeightedGaussian.sumVar a : ℚ) : ℝ) := by exact_mod_cast ha
  have hsb : (0 : ℝ) < ((WeightedGaussian.sumVar b : ℚ) : ℝ) := by exact_mod_cast hb
  have hra : 0 < Real.sqrt ((WeightedGaussian.sumVar a : ℚ) : ℝ) := Real.sqrt_pos.mpr hsa
  have hrb : 0 < Real.sqrt ((WeightedGaussian.sumVar b : ℚ) : ℝ) := Real.sqrt_pos.mpr hsb
  rw [div_lt_div_iff₀ hrb hra]
  set ra := Real.sqrt ((WeightedGaussian.sumVar a : ℚ) : ℝ) with hra_def
  set rb := Real.sqrt ((WeightedGaussian.sumVar b : ℚ) : ℝ) with hrb_def
  have hsqa : ra * ra = ((WeightedGaussian.sumVar a : ℚ) : ℝ) := Real.mul_self_sqrt hsa.le
  have hsqb : rb * rb = ((WeightedGaussian.sumVar b : ℚ) : ℝ) := Real.mul_self_sqrt hsb.le
  unfold rankGt
  by_cases h1 : 0 < a.weight
  · have hwa : (0 : ℝ) < (a.weight : ℝ) := by exact_mod_cast h1
    rw [if_pos h1]
    by_cases h2 : b.weight ≤ 0
    · have hwb : (b.weight : ℝ) ≤ 0 := by exact_mod_cast h2
      rw [if_pos h2]
      simp only [true_iff]
      have hl : (b.weight : ℝ) * ra ≤ 0 := mul_nonpos_of_nonpos_of_nonneg hwb hra.le
      have hr : 0 < (a.weight : ℝ) * rb := mul_pos hwa hrb
      linarith
    · have hwb : (0 : ℝ) < (b.weight : ℝ) := by
        have h2' := lt_of_not_ge h2
        exact_mod_cast h2'
      rw [if_neg h2, decide_eq_true_iff]
      have hiff := mul_self_lt_mul_self_iff
        (mul_nonneg hwb.le hra.le) (mul_nonneg hwa.le hrb.le)
      rw [hiff]
      constructor
      · intro h
        have hcast : ((b.weight * b.weight * WeightedGaussian.sumVar a : ℚ) : ℝ)
            < ((a.weight * a.weight * WeightedGaussian.sumVar b : ℚ) : ℝ) := by
          exact_mod_cast h
        push_cast at hcast
        nlinarith [hsqa, hsqb]
      · intro h
        have hcast : ((b.weight * b.weight * WeightedGaussian.sumVar a : ℚ) : ℝ)
            < ((a.weight * a.weight * WeightedGaussian.sumVar b : ℚ) : ℝ) := by
          push_cast
          nlinarith [hsqa, hsqb]
        exact_mod_cast hcast
  · have hwa : (a.weight : ℝ) ≤ 0 := by
      have h1' := le_of_not_gt h1
      exact_mod_cast h1'
    rw [if_neg h1]
    by_cases h3 : 0 ≤ b.weight
    · have hwb : (0 : ℝ) ≤ (b.weight : ℝ) := by exact_mod_cast h3
      rw [if_pos h3]
      simp only [Bool.false_eq_true, false_iff, not_lt]
      have hl : (a.weight : ℝ) * rb ≤ 0 := mul_nonpos_of_nonpos_of_nonneg hwa hrb.le
      have hr : 0 ≤ (b.weight : ℝ) * ra := mul_nonneg hwb hra.le
      linarith
    · have hwb : (b.weight : ℝ) < 0 := by
        have h3' := lt_of_not_ge h3
        exact_mod_cast h3'
      rw [if_neg h3, decide_eq_true_iff]
      have hx : (0 : ℝ) ≤ -((a.weight : ℝ) * rb) := by nlinarith
      have hy : (0 : ℝ) ≤ -((b.weight : ℝ) * ra) := by nlinarith
      have hiff := mul_self_lt_mul_self_iff hx hy
      constructor
      · intro h
        have hcast : ((a.weight * a.weight * WeightedGaussian.sumVar b : ℚ) : ℝ)
            < ((b.weight * b.weight * WeightedGaussian.sumVar a : ℚ) : ℝ) := by
          exact_mod_cast h
        push_cast at hcast
        have h2 : -((a.weight : ℝ) * rb) < -((b.weight : ℝ) * ra) := by
          apply hiff.mpr
          nlinarith [hsqa, hsqb]
        linarith
      · intro h
        have h2 : -((a.weight : ℝ) * rb) * -((a.weight : ℝ) * rb)
            < -((b.weight : ℝ) * ra) * -((b.weight : ℝ) * ra) := hiff.mp (by linarith)
        have hfin : (a.weight : ℝ) * (a.weight : ℝ) * ((WeightedGaussian.sumVar b : ℚ) : ℝ)
            < (b.weight : ℝ) * (b.weight : ℝ) * ((WeightedGaussian.sumVar a : ℚ) : ℝ) := by
          nlinarith [hsqa, hsqb]
        have hcast : ((a.weight * a.weight * WeightedGaussian.sumVar b : ℚ) : ℝ)
            < ((b.weight * b.weight * WeightedGaussian.sumVar a : ℚ) : ℝ) := by
          push_cast
          exact hfin
        exact_mod_cast hcast

lemma rankGt_asymm (a b : WeightedGaussian)
    (ha : 0 < WeightedGaussian.sumVar a) (hb : 0 < WeightedGaussian.sumVar b)
    (h : rankGt a b = true) : rankGt b a = false := by
  by_contra hc
  have hc' : rankGt b a = true := by
    cases hba : rankGt b a with
    | false => exact absurd hba hc
    | true => rfl
  have h1 := (rankGt_iff_real a b ha hb).mp h
  have h2 := (rankGt_iff_real b a hb ha).mp hc'
  linarith

lemma notGt_trans (a b c : WeightedGaussian)
    (ha : 0 < WeightedGaussian.sumVar a) (hb : 0 < WeightedGaussian.sumVar b)
    (hc : 0 < WeightedGaussian.sumVar c)
    (h1 : rankGt b a = false) (h2 : rankGt c b = false) : rankGt c a = false := by
  by_contra hcon
  have hca : rankGt c a = true := by
    cases h : rankGt c a with
    | false => exact absurd h hcon
    | true => rfl
  have k1 : ¬ ((a.weight : ℝ) / Real.sqrt ((WeightedGaussian.sumVar a : ℚ) : ℝ) <
      (b.weight : ℝ) / Real.sqrt ((WeightedGaussian.sumVar b : ℚ) : ℝ)) := by
    intro hlt
    have := (rankGt_iff_real b a hb ha).mpr hlt
    rw [this] at h1
    exact absurd h1 (by simp)
  have k2 : ¬ ((b.weight : ℝ) / Real.sqrt ((WeightedGaussian.sumVar b : ℚ) : ℝ) <
      (c.weight : ℝ) / Real.sqrt ((WeightedGaussian.sumVar c : ℚ) : ℝ)) := by
    intro hlt
    have := (rankGt_iff_real c b hc hb).mpr hlt
    rw [this] at h2
    exact absurd h2 (by simp)
  have k3 := (rankGt_iff_real c a hc ha).mp hca
  push_neg at k1 k2
  linarith

lemma rankGt_scaleWeight (a b : WeightedGaussian) (s : ℚ) (hs : 0 < s) :
    rankGt (scaleWeight a s) (scaleWeight b s) = rankGt a b := by
  unfold rankGt scaleWeight
  simp only
  have hwa : (0 < a.weight * s) ↔ (0 < a.weight) := by
    constructor <;> intro h <;> nlinarith
  have hwb : (b.weight * s ≤ 0) ↔ (b.weight ≤ 0) := by
    constructor <;> intro h <;> nlinarith
  have hwb2 : (0 ≤ b.weight * s) ↔ (0 ≤ b.weight) := by
    constructor <;> intro h <;> nlinarith
  have hq1 : (b.weight * s * (b.weight * s) * WeightedGaussian.sumVar a
      < a.weight * s * (a.weight * s) * WeightedGaussian.sumVar b) ↔
      (b.weight * b.weight * WeightedGaussian.sumVar a
      < a.weight * a.weight * WeightedGaussian.sumVar b) := by
    constructor <;> intro h <;> nlinarith [mul_pos hs hs]
  have hq2 : (a.weight * s * (a.weight * s) * WeightedGaussian.sumVar b
      < b.weight * s * (b.weight * s) * WeightedGaussian.sumVar a) ↔
      (a.weight * a.weight * WeightedGaussian.sumVar b
      < b.weight * b.weight * WeightedGaussian.sumVar a) := by
    constructor <;> intro h <;> nlinarith [mul_pos hs hs]
  simp only [WeightedGaussian.sumVar] at hq1 hq2 ⊢
  simp only [hwa, hwb, hwb2, hq1, hq2]

lemma sortGaussians_eq_insUp :
    ∀ (R : List WeightedGaussian) (m : WeightedGaussian) (S : List WeightedGaussian),
      sortGaussians (R.reverse ++ m :: S) R.length =
        ((insUp R m).1.reverse ++ S, R.length - (insUp R m).2) := by
  intro R
  induction R with
  | nil => intro m S; simp [sortGaussians, insUp]
  | cons p R' ih =>
    intro m S
    have hl : (p :: R').reverse ++ m :: S = R'.reverse ++ (p :: m :: S) := by
      simp [List.append_assoc]
    have hlen : R'.reverse.length = R'.length := by simp
    have hget1 : ((p :: R').reverse ++ m :: S)[R'.length + 1]? = some m := by
      rw [hl, List.getElem?_append_right (by omega)]
      simp [hlen]
    have hget2 : ((p :: R').reverse ++ m :: S)[R'.length]? = some p := by
      rw [hl, List.getElem?_append_right (by omega)]
      simp [hlen]
    have hlength : (p :: R').length = R'.length + 1 := rfl
    rw [hlength]
    simp only [sortGaussians, hget1, hget2]
    by_cases hr : rankGt m p
    · rw [if_pos hr]
      have hset : (((p :: R').reverse ++ m :: S).set R'.length m).set (R'.length + 1) p
          = R'.reverse ++ (m :: p :: S) := by
        rw [hl]
        rw [List.set_append, if_neg (by omega)]
        rw [List.set_append, if_neg (by omega)]
        simp [hlen]
      rw [hset]
      rw [ih m (p :: S)]
      simp only [insUp, if_pos hr, Prod.mk.injEq]
      refine ⟨by simp [List.append_assoc], by omega⟩
    · rw [if_neg hr]
      simp only [insUp, if_neg hr, Prod.mk.injEq]
      refine ⟨by simp [List.append_assoc], by omega⟩

lemma insUp_perm : ∀ (R : List WeightedGaussian) (m : WeightedGaussian),
    (insUp R m).1.Perm (m :: R) := by
  intro R
  induction R with
  | nil => intro m; simp [insUp]
  | cons p R' ih =>
    intro m
    by_cases hr : rankGt m p
    · simp only [insUp, if_pos hr]
      exact ((ih m).cons p).trans (List.Perm.swap m p R')
    · simp [insUp, hr]

lemma insUp_sorted :
    ∀ (R : List WeightedGaussian) (m' : WeightedGaussian) (S : List WeightedGaussian),
      List.Chain' (fun a b => rankGt b a = false) (R.reverse ++ S) →
      (∀ s ∈ S.head?, rankGt s m' = false) →
      (∀ g ∈ R, 0 < WeightedGaussian.sumVar g) →
      0 < WeightedGaussian.sumVar m' →
      List.Chain' (fun a b => rankGt b a = false) ((insUp R m').1.reverse ++ S) := by
  intro R
  induction R with
  | nil =>
    intro m' S h1 hS _ _
    simp only [insUp, List.reverse_cons, List.reverse_nil, List.nil_append,
      List.singleton_append]
    rw [List.chain'_cons']
    exact ⟨hS, by simpa using h1⟩
  | cons p R' ih =>
    intro m' S h1 hS hposR hposm
    have h1' : List.Chain' (fun a b => rankGt b a = false) (R'.reverse ++ (p :: S)) := by
      simpa [List.append_assoc] using h1
    by_cases hr : rankGt m' p
    · simp only [insUp, if_pos hr]
      have hres := ih m' (p :: S) h1'
        (by
          intro s hs
          simp at hs
          subst hs
          exact rankGt_asymm m' p hposm (hposR p (by simp)) hr)
        (fun g hg => hposR g (by simp [hg]))
        hposm
      simpa [List.append_assoc] using hres
    · simp only [insUp, if_neg hr]
      have hgoal : List.Chain' (fun a b => rankGt b a = false)
          (R'.reverse ++ (p :: m' :: S)) := by
        rw [List.chain'_append] at h1' ⊢
        refine ⟨h1'.1, ?_, ?_⟩
        · rw [List.chain'_cons']
          refine ⟨?_, ?_⟩
          · intro y hy
            simp at hy
            subst hy
            simpa using hr
          · rw [List.chain'_cons']
            refine ⟨hS, ?_⟩
            have := h1'.2.1
            rw [List.chain'_cons'] at this
            exact this.2
        · intro x hx y hy
          simp at hy
          subst hy
          exact h1'.2.2 x hx p (by simp)
      simpa [List.append_assoc] using hgoal

lemma findMatch_some_lt (gmm : GMM) (pixel : List ℚ) (thr : ℚ) (i : ℕ)
    (h : findMatch gmm pixel thr = some i) : i < gmm.length := by
  have h' : findMatchFrom pixel thr gmm 0 = some (0 + i) := by
    rw [Nat.zero_add]; exact h
  exact ((findMatchFrom_some_iff pixel thr gmm 0 i).mp h').1

lemma findMatchAndUpdate_match_branch (cfg : Config) (gmm : GMM) (pixel : List ℚ)
    (α : ℚ) (i : ℕ) (hm : findMatch gmm pixel cfg.varianceThreshold = some i) :
    findMatchAndUpdate cfg gmm pixel α =
      (normalizeWeights
          (sortGaussians (gmm.set i (update (gmm.getD i default) pixel α)) i).1
          (1 / (1 + α * (1 - (gmm.getD i default).weight))),
        (sortGaussians (gmm.set i (update (gmm.getD i default) pixel α)) i).2) := by
  rw [findMatchAndUpdate, hm]

/-- C4 (amended): after a step in which a match is found, if the model was
sorted by non-increasing rank before, every component (and the updated one)
has a positive variance sum, the learning rate is nonnegative, the matched
weight is at most 1, and the matched component's updated rank does not
drop below its old rank, then the model is again sorted by non-increasing
rank after the percolate-up re-sort and renormalization.  (The original
claim, covering the no-match append as well, is refuted by
`append_breaks_rank_order`.) -/
theorem sorted_after_matched_update (cfg : Config) (gmm : GMM) (pixel : List ℚ)
    (α : ℚ) (i : ℕ)
    (hm : findMatch gmm pixel cfg.varianceThreshold = some i)
    (hsorted : SortedByRank gmm)
    (hα : 0 ≤ α)
    (hw : (gmm.getD i default).weight ≤ 1)
    (hv : ∀ g ∈ gmm, 0 < WeightedGaussian.sumVar g)
    (hvu : 0 < WeightedGaussian.sumVar (update (gmm.getD i default) pixel α))
    (hr : rankGt (gmm.getD i default) (update (gmm.getD i default) pixel α) = false) :
    SortedByRank (findMatchAndUpdate cfg gmm pixel α).1 := by
  have hi : i < gmm.length := findMatch_some_lt gmm pixel cfg.varianceThreshold i hm
  rw [findMatchAndUpdate_match_branch cfg gmm pixel α i hm]
  set g := gmm.getD i default with hgdef
  set m' := update g pixel α with hm'def
  set P := gmm.take i with hPdef
  set S := gmm.drop (i + 1) with hSdef
  have hgelem : gmm[i]? = some g := by
    rw [List.getElem?_eq_getElem hi, hgdef, List.getD_eq_getElem?_getD,
      List.getElem?_eq_getElem hi]
    rfl
  have hgm : gmm = P ++ g :: S := by
    conv_lhs => rw [← List.take_append_drop i gmm]
    rw [hPdef, hSdef]
    congr 1
    rw [List.drop_eq_getElem_cons hi]
    congr 1
    have := List.getElem?_eq_getElem hi
    rw [hgelem] at this
    exact (Option.some.inj this).symm
  have hPlen : P.length = i := by
    rw [hPdef]
    simp [List.length_take]
    omega
  have hset : gmm.set i m' = P ++ m' :: S := by
    rw [List.set_eq_take_append_cons_drop]
    rw [if_pos hi]
  have hchar := sortGaussians_eq_insUp P.reverse m' S
  rw [List.reverse_reverse] at hchar
  have hRlen : P.reverse.length = i := by simp [hPlen]
  rw [hRlen] at hchar
  have hsortg : (sortGaussians (gmm.set i m') i).1 = (insUp P.reverse m').1.reverse ++ S := by
    rw [hset, hchar]
  rw [hsortg]
  -- decompose the sortedness of the original list
  have hsorted' : List.Chain' (fun a b => rankGt b a = false) (P ++ g :: S) := by
    rw [← hgm]; exact hsorted
  rw [List.chain'_append] at hsorted'
  obtain ⟨hP, hgS, hlink⟩ := hsorted'
  rw [List.chain'_cons'] at hgS
  obtain ⟨hShead, hSchain⟩ := hgS
  have hposP : ∀ x ∈ P, 0 < WeightedGaussian.sumVar x := by
    intro x hx
    exact hv x (List.take_subset i gmm (hPdef ▸ hx))
  have hposS : ∀ x ∈ S, 0 < WeightedGaussian.sumVar x := by
    intro x hx
    exact hv x (List.drop_subset (i + 1) gmm (hSdef ▸ hx))
  have hposg : 0 < WeightedGaussian.sumVar g := by
    apply hv
    rw [hgm]; simp
  have hPS : List.Chain' (fun a b => rankGt b a = false) (P ++ S) := by
    rw [List.chain'_append]
    refine ⟨hP, hSchain, ?_⟩
    intro x hx y hy
    have h1 : rankGt g x = false := hlink x hx g (by simp)
    have h2 : rankGt y g = false := hShead y hy
    have hxP : x ∈ P := by
      obtain ⟨hne, hxeq⟩ := List.mem_getLast?_eq_getLast hx
      subst hxeq
      exact List.getLast_mem hne
    have hyS : y ∈ S := List.mem_of_mem_head? hy
    exact notGt_trans x g y (hposP x hxP) hposg (hposS y hyS) h1 h2
  have hShead' : ∀ s ∈ S.head?, rankGt s m' = false := by
    intro s hs
    have hsS : s ∈ S := List.mem_of_mem_head? hs
    exact notGt_trans m' g s hvu hposg (hposS s hsS) hr (hShead s hs)
  have hins := insUp_sorted P.reverse m' S (by simpa using hPS) hShead'
    (by
      intro x hx
      exact hposP x (List.mem_reverse.mp hx))
    hvu
  have hscale : 0 < 1 / (1 + α * (1 - g.weight)) := by
    have hpos : (0 : ℚ) < 1 + α * (1 - g.weight) := by nlinarith
    exact one_div_pos.mpr hpos
  unfold SortedByRank normalizeWeights
  rw [List.chain'_map]
  refine List.Chain'.imp ?_ hins
  intro a b hab
  rw [rankGt_scaleWeight b a _ hscale]
  exact hab

/-- C4 counterexample, in two parts.  First, the no-match append: from a
sorted one-component model of total weight 1, an unmatched observation
appends a fresh component that outranks its predecessor, so the list after
the step is not sorted.  Second, the match branch with decreasing rank:
from a sorted two-component model of total weight 1, a matched update
(the variance grows faster than the weight) strictly lowers the matched
component's rank below its successor's, and the percolate-up re-sort never
moves a component downward, so the list after the step is again not
sorted.  Together these force exactly the restrictions of the amended
claim: excluding the append branch and requiring the matched component's
updated rank not to decrease. -/
theorem append_breaks_rank_order :
    (SortedByRank [({ weight := 1, mean := [0], variance := [10000] } : WeightedGaussian)] ∧
     sumWeights [({ weight := 1, mean := [0], variance := [10000] } : WeightedGaussian)] = 1 ∧
     ¬ SortedByRank (findMatchAndUpdate ⟨2, 1, 1/20, 1/2, 7/10⟩
        [{ weight := 1, mean := [0], variance := [10000] }] [100] (1/20)).1) ∧
    (SortedByRank [({ weight := 99/100, mean := [0], variance := [1] } : WeightedGaussian),
        { weight := 1/100, mean := [10], variance := [513/5000000] }] ∧
     sumWeights [({ weight := 99/100, mean := [0], variance := [1] } : WeightedGaussian),
        { weight := 1/100, mean := [10], variance := [513/5000000] }] = 1 ∧
     findMatch [({ weight := 99/100, mean := [0], variance := [1] } : WeightedGaussian),
        { weight := 1/100, mean := [10], variance := [513/5000000] }] [3/2] (5/2) = some 0 ∧
     rankGt ({ weight := 99/100, mean := [0], variance := [1] } : WeightedGaussian)
        (update { weight := 99/100, mean := [0], variance := [1] } [3/2] (1/100)) = true ∧
     ¬ SortedByRank (findMatchAndUpdate ⟨3, 36, 1/20, 5/2, 7/10⟩
        [({ weight := 99/100, mean := [0], variance := [1] } : WeightedGaussian),
         { weight := 1/100, mean := [10], variance := [513/5000000] }] [3/2] (1/100)).1) := by
  refine ⟨⟨by simp [SortedByRank], by norm_num [sumWeights], ?_⟩, ?_, ?_, ?_, ?_, ?_⟩
  · norm_num [SortedByRank, findMatchAndUpdate, findMatch, findMatchFrom, isMatch, sqDist,
      WeightedGaussian.sumVar, normalizeWeights, scaleWeight, rankGt]
  · norm_num [SortedByRank, List.chain'_cons, List.chain'_singleton, rankGt,
      WeightedGaussian.sumVar]
  · norm_num [sumWeights]
  · norm_num [findMatch, findMatchFrom, isMatch, sqDist, WeightedGaussian.sumVar]
  · norm_num [rankGt, update, WeightedGaussian.sumVar]
  · norm_num [SortedByRank, findMatchAndUpdate, findMatch, findMatchFrom, isMatch, sqDist,
      WeightedGaussian.sumVar, normalizeWeights, scaleWeight, rankGt, update,
      sortGaussians, List.chain'_cons, List.chain'_singleton]

/-- C4 witness: a matched update on a sorted two-component model whose
matched rank increases. -/
theorem sorted_after_matched_update_witness :
    SortedByRank (findMatchAndUpdate ⟨3, 36, 1/20, 5/2, 7/10⟩
      [⟨1/2, [10], [4]⟩, ⟨1/2, [90], [4]⟩] [10] (1/2)).1 :=
  sorted_after_matched_update ⟨3, 36, 1/20, 5/2, 7/10⟩
    [⟨1/2, [10], [4]⟩, ⟨1/2, [90], [4]⟩] [10] (1/2) 0
    (by norm_num [findMatch, findMatchFrom, isMatch, sqDist, WeightedGaussian.sumVar])
    (by norm_num [SortedByRank, rankGt, WeightedGaussian.sumVar, List.chain'_cons])
    (by norm_num)
    (by norm_num)
    (by
      intro g hg
      simp at hg
      rcases hg with h | h <;> subst h <;> norm_num [WeightedGaussian.sumVar])
    (by norm_num [update, WeightedGaussian.sumVar])
    (by norm_num [rankGt, update, WeightedGaussian.sumVar])

lemma sortGaussians_perm (l : GMM) (i : ℕ) (hi : i < l.length) :
    (sortGaussians l i).1.Perm l := by
  have hgelem : l[i]? = some l[i] := List.getElem?_eq_getElem hi
  have hgm : l = l.take i ++ l[i] :: l.drop (i + 1) := by
    conv_lhs => rw [← List.take_append_drop i l]
    congr 1
    rw [List.drop_eq_getElem_cons hi]
  have hRlen : (l.take i).reverse.length = i := by
    simp [List.length_take]
    omega
  have hchar := sortGaussians_eq_insUp (l.take i).reverse l[i] (l.drop (i + 1))
  rw [List.reverse_reverse, hRlen] at hchar
  rw [← hgm] at hchar
  rw [hchar]
  have h1 : (insUp (l.take i).reverse l[i]).1.Perm (l[i] :: (l.take i).reverse) :=
    insUp_perm (l.take i).reverse l[i]
  have p1 : ((insUp (l.take i).reverse l[i]).1.reverse ++ l.drop (i + 1)).Perm
      ((insUp (l.take i).reverse l[i]).1 ++ l.drop (i + 1)) :=
    ((insUp (l.take i).reverse l[i]).1.reverse_perm).append_right _
  have p2 : ((insUp (l.take i).reverse l[i]).1 ++ l.drop (i + 1)).Perm
      ((l[i] :: (l.take i).reverse) ++ l.drop (i + 1)) := h1.append_right _
  have p3 : ((l[i] :: (l.take i).reverse) ++ l.drop (i + 1)).Perm
      ((l[i] :: l.take i) ++ l.drop (i + 1)) :=
    (((l.take i).reverse_perm).cons l[i]).append_right _
  have p4 : ((l[i] :: l.take i) ++ l.drop (i + 1)).Perm
      (l.take i ++ l[i] :: l.drop (i + 1)) := List.perm_middle.symm
  have hfin := ((p1.trans p2).trans p3).trans p4
  rw [← hgm] at hfin
  exact hfin

/-- C10: when `findMatchAndUpdate` finds a match, the resulting model is a
permutation (the percolate-up re-sort only reorders) of the original model
with only the matched component's entry replaced by its update and every
component's weight multiplied by the one common scale factor; and that
common positive scaling preserves the relative rank ordering among the
non-matched components. -/
theorem matched_update_frame (cfg : Config) (gmm : GMM) (pixel : List ℚ)
    (α : ℚ) (i : ℕ)
    (hm : findMatch gmm pixel cfg.varianceThreshold = some i)
    (hα : 0 ≤ α) (hw : (gmm.getD i default).weight ≤ 1) :
    (findMatchAndUpdate cfg gmm pixel α).1.Perm
      (normalizeWeights (gmm.set i (update (gmm.getD i default) pixel α))
        (1 / (1 + α * (1 - (gmm.getD i default).weight)))) ∧
    (∀ j k : ℕ, j ≠ i → k ≠ i →
      rankGt
          (scaleWeight (gmm.getD j default)
            (1 / (1 + α * (1 - (gmm.getD i default).weight))))
          (scaleWeight (gmm.getD k default)
            (1 / (1 + α * (1 - (gmm.getD i default).weight))))
        = rankGt (gmm.getD j default) (gmm.getD k default)) := by
  have hi : i < gmm.length := findMatch_some_lt gmm pixel cfg.varianceThreshold i hm
  have hscale : 0 < 1 / (1 + α * (1 - (gmm.getD i default).weight)) := by
    have hpos : (0 : ℚ) < 1 + α * (1 - (gmm.getD i default).weight) := by nlinarith
    exact one_div_pos.mpr hpos
  constructor
  · rw [findMatchAndUpdate_match_branch cfg gmm pixel α i hm]
    refine List.Perm.map _ ?_
    exact sortGaussians_perm (gmm.set i (update (gmm.getD i default) pixel α)) i
      (by simpa using hi)
  · intro j k hj hk
    exact rankGt_scaleWeight (gmm.getD j default) (gmm.getD k default) _ hscale

/-- C10 witness: the frame property at a concrete matched update. -/
theorem matched_update_frame_witness :
    (findMatchAndUpdate ⟨3, 36, 1/20, 5/2, 7/10⟩
        [⟨1/2, [10], [4]⟩, ⟨1/2, [90], [4]⟩] [10] (1/2)).1.Perm
      (normalizeWeights
        (([⟨1/2, [10], [4]⟩, ⟨1/2, [90], [4]⟩] : GMM).set 0
          (update (([⟨1/2, [10], [4]⟩, ⟨1/2, [90], [4]⟩] : GMM).getD 0 default) [10] (1/2)))
        (1 / (1 + (1/2) * (1 - (([⟨1/2, [10], [4]⟩, ⟨1/2, [90], [4]⟩] : GMM).getD 0 default).weight)))) :=
  (matched_update_frame ⟨3, 36, 1/20, 5/2, 7/10⟩
    [⟨1/2, [10], [4]⟩, ⟨1/2, [90], [4]⟩] [10] (1/2) 0
    (by norm_num [findMatch, findMatchFrom, isMatch, sqDist, WeightedGaussian.sumVar])
    (by norm_num) (by norm_num)).1

/-- C6 counterexample: initialization with `numGaussians = 0` (an invalid
configuration per the specification) succeeds: the source performs no
validation of `numGaussians`, so the call does not fail and the per-pixel
store is allocated. -/
theorem init_accepts_zero_gaussians :
    (initDetector [2, 3] ⟨0, 36, 1/20, 5/2, 7/10⟩).isSome = true := by
  rfl

/-- C6 (amended): initialization rejects malformed dims (fewer than two
entries) through the `VISION_ASSERT` in `setup`, allocating nothing; with
well-formed dims it always succeeds — for any `numGaussians`, including
0 — allocating one empty model per pixel. -/
theorem init_validation (dims : List ℕ) (cfg : Config) :
    (dims.length < 2 → initDetector dims cfg = none) ∧
    (2 ≤ dims.length →
      initDetector dims cfg = some
        ⟨cfg, dims.getD 0 0 * dims.getD 1 0,
          (if 2 < dims.length then dims.getD 2 0 else 1),
          List.replicate (dims.getD 0 0 * dims.getD 1 0) []⟩) := by
  constructor
  · intro h
    rw [initDetector, setupDims, if_neg (by omega)]
  · intro h
    rw [initDetector, setupDims, if_pos h]

lemma getD_set_ne_nil (l : List GMM) (x : GMM) (a b : ℕ) (h : a ≠ b) :
    (l.set a x).getD b [] = l.getD b [] := by
  rw [List.getD_eq_getElem?_getD, List.getD_eq_getElem?_getD, List.getElem?_set_ne h]

lemma processPixel_comm (cfg : Config) (eps : ℚ) (image : ℕ → ℚ)
    (np nc : ℕ) (α : ℚ) (s : List GMM × List Bool) (i j : ℕ) :
    processPixel cfg eps image np nc α (processPixel cfg eps image np nc α s i) j
      = processPixel cfg eps image np nc α (processPixel cfg eps image np nc α s j) i := by
  by_cases hij : i = j
  · subst hij; rfl
  · simp only [processPixel]
    rw [getD_set_ne_nil _ _ _ _ hij, getD_set_ne_nil _ _ _ _ (Ne.symm hij)]
    rw [Prod.mk.injEq]
    exact ⟨List.set_comm _ _ _ hij, List.set_comm _ _ _ hij⟩

lemma runPixels_perm (cfg : Config) (eps : ℚ) (image : ℕ → ℚ)
    (np nc : ℕ) (α : ℚ) (s : List GMM × List Bool) (ids1 ids2 : List ℕ)
    (hperm : ids1.Perm ids2) :
    runPixels cfg eps image np nc α s ids1 = runPixels cfg eps image np nc α s ids2 :=
  hperm.foldl_eq' (fun x _ y _ z => processPixel_comm cfg eps image np nc α z x y) s

lemma runChunks_eq_flat (cfg : Config) (eps : ℚ) (image : ℕ → ℚ)
    (np nc : ℕ) (α : ℚ) :
    ∀ (chunks : List (ℕ × ℕ)) (s : List GMM × List Bool),
      runChunks cfg eps image np nc α s chunks =
        runPixels cfg eps image np nc α s
          (chunks.flatMap (fun c => List.range' c.1 (c.2 - c.1))) := by
  intro chunks
  induction chunks with
  | nil => intro s; rfl
  | cons c rest ih =>
    intro s
    show runChunks cfg eps image np nc α
        (runPixels cfg eps image np nc α s (List.range' c.1 (c.2 - c.1))) rest = _
    rw [ih]
    rw [List.flatMap_cons]
    unfold runPixels
    rw [List.foldl_append]

/-- C9: chunking-independence of `step`: running the per-pixel kernel over
any list of contiguous chunks whose concatenation is a permutation of the
pixel range `[0, rows*cols)` yields exactly the same output mask and final
per-pixel models as one sequential pass over the whole range, because each
pixel's result depends only on that pixel's own prior model and frame
value. -/
theorem step_chunking_deterministic (cfg : Config) (eps : ℚ) (image : ℕ → ℚ)
    (np nc : ℕ) (α : ℚ) (s : List GMM × List Bool) (chunks : List (ℕ × ℕ))
    (hcover : (chunks.flatMap (fun c => List.range' c.1 (c.2 - c.1))).Perm
      (List.range np)) :
    runChunks cfg eps image np nc α s chunks =
      runPixels cfg eps image np nc α s (List.range np) := by
  rw [runChunks_eq_flat]
  exact runPixels_perm cfg eps image np nc α s _ _ hcover

/-- C9 witness: two pixels processed as the chunks `[1,2)` then `[0,1)`
versus the single pass `[0,2)`. -/
theorem step_chunking_deterministic_witness :
    runChunks ⟨3, 36, 1/20, 5/2, 7/10⟩ 0 (fun n => (n : ℚ)) 2 1 (1/20)
        ([[], []], [false, false]) [(1, 2), (0, 1)] =
      runPixels ⟨3, 36, 1/20, 5/2, 7/10⟩ 0 (fun n => (n : ℚ)) 2 1 (1/20)
        ([[], []], [false, false]) (List.range 2) :=
  step_chunking_deterministic ⟨3, 36, 1/20, 5/2, 7/10⟩ 0 (fun n => (n : ℚ)) 2 1 (1/20)
    ([[], []], [false, false]) [(1, 2), (0, 1)] (by decide)

lemma writeStrided_mod_ne : ∀ (vals : List ℚ) (f : ℕ → ℚ) (base stride q : ℕ),
    q % stride ≠ base % stride → writeStrided f base stride vals q = f q := by
  intro vals
  induction vals with
  | nil => intro f base stride q _; rfl
  | cons v vs ih =>
    intro f base stride q h
    show writeStrided (Function.update f base v) (base + stride) stride vs q = f q
    rw [ih _ _ _ _ (by rwa [Nat.add_mod_right])]
    have hqb : q ≠ base := by
      intro hq
      subst hq
      exact h rfl
    exact Function.update_noteq hqb v f

lemma writeStrided_ne : ∀ (vals : List ℚ) (f : ℕ → ℚ) (base stride q : ℕ),
    (∀ c < vals.length, q ≠ base + stride * c) → writeStrided f base stride vals q = f q := by
  intro vals
  induction vals with
  | nil => intro f base stride q _; rfl
  | cons v vs ih =>
    intro f base stride q h
    show writeStrided (Function.update f base v) (base + stride) stride vs q = f q
    rw [ih _ _ _ _ (by
      intro c hc
      have := h (c + 1) (by simpa using Nat.succ_lt_succ hc)
      rw [Nat.mul_succ] at this
      omega)]
    refine Function.update_noteq ?_ v f
    have := h 0 (by simp)
    simpa using this

lemma writeStrided_get : ∀ (vals : List ℚ) (f : ℕ → ℚ) (base stride c : ℕ),
    c < vals.length → 0 < stride →
    writeStrided f base stride vals (base + stride * c) = vals.getD c 0 := by
  intro vals
  induction vals with
  | nil => intro f base stride c hc _; simp at hc
  | cons v vs ih =>
    intro f base stride c hc hs
    match c with
    | 0 =>
      show writeStrided (Function.update f base v) (base + stride) stride vs (base + stride * 0)
          = v
      rw [writeStrided_ne _ _ _ _ _ (by
        intro c' hc'
        omega)]
      simp [Function.update_same]
    | c' + 1 =>
      show writeStrided (Function.update f base v) (base + stride) stride vs
          (base + stride * (c' + 1)) = vs.getD c' 0
      have harith : base + stride * (c' + 1) = (base + stride) + stride * c' := by
        rw [Nat.mul_succ]; omega
      rw [harith]
      exact ih _ _ _ _ (by simpa using hc) hs

lemma writeGaussians_numActive (np nc p : ℕ) : ∀ (l : List WeightedGaussian) (i : ℕ)
    (a : StateArrays), (writeGaussians np nc p l i a).numActive = a.numActive := by
  intro l
  induction l with
  | nil => intro i a; rfl
  | cons g rest ih => intro i a; exact ih (i + 1) _

lemma writeGaussians_weights_mod (np nc p : ℕ) : ∀ (l : List WeightedGaussian) (i : ℕ)
    (a : StateArrays) (q : ℕ), q % np ≠ p % np →
    (writeGaussians np nc p l i a).weights q = a.weights q := by
  intro l
  induction l with
  | nil => intro i a q _; rfl
  | cons g rest ih =>
    intro i a q h
    show (writeGaussians np nc p rest (i + 1) _).weights q = a.weights q
    rw [ih (i + 1) _ q h]
    refine Function.update_noteq ?_ _ _
    intro hq
    subst hq
    exact h (Nat.add_mul_mod_self_left p np i)

lemma writeGaussians_means_mod (np nc p : ℕ) : ∀ (l : List WeightedGaussian) (i : ℕ)
    (a : StateArrays) (q : ℕ), q % np ≠ p % np →
    (writeGaussians np nc p l i a).means q = a.means q := by
  intro l
  induction l with
  | nil => intro i a q _; rfl
  | cons g rest ih =>
    intro i a q h
    show (writeGaussians np nc p rest (i + 1) _).means q = a.means q
    rw [ih (i + 1) _ q h]
    refine writeStrided_mod_ne _ _ _ _ _ ?_
    have : (p + np * nc * i) % np = p % np := by
      rw [Nat.mul_assoc]
      exact Nat.add_mul_mod_self_left p np (nc * i)
    rw [this]
    exact h

lemma writeGaussians_variances_mod (np nc p : ℕ) : ∀ (l : List WeightedGaussian) (i : ℕ)
    (a : StateArrays) (q : ℕ), q % np ≠ p % np →
    (writeGaussians np nc p l i a).variances q = a.variances q := by
  intro l
  induction l with
  | nil => intro i a q _; rfl
  | cons g rest ih =>
    intro i a q h
    show (writeGaussians np nc p rest (i + 1) _).variances q = a.variances q
    rw [ih (i + 1) _ q h]
    refine writeStrided_mod_ne _ _ _ _ _ ?_
    have : (p + np * nc * i) % np = p % np := by
      rw [Nat.mul_assoc]
      exact Nat.add_mul_mod_self_left p np (nc * i)
    rw [this]
    exact h

lemma writeGaussians_weights_ne (np nc p : ℕ) : ∀ (l : List WeightedGaussian) (i : ℕ)
    (a : StateArrays) (q : ℕ), (∀ d < l.length, q ≠ p + np * (i + d)) →
    (writeGaussians np nc p l i a).weights q = a.weights q := by
  intro l
  induction l with
  | nil => intro i a q _; rfl
  | cons g rest ih =>
    intro i a q h
    show (writeGaussians np nc p rest (i + 1) _).weights q = a.weights q
    rw [ih (i + 1) _ q (by
      intro d hd
      have := h (d + 1) (by simpa using Nat.succ_lt_succ hd)
      have harith : i + (d + 1) = (i + 1) + d := by omega
      rwa [harith] at this)]
    refine Function.update_noteq ?_ _ _
    have := h 0 (by simp)
    simpa using this

lemma writeGaussians_weights_read (np nc p : ℕ) : ∀ (l : List WeightedGaussian) (i : ℕ)
    (a : StateArrays) (d : ℕ), d < l.length → 0 < np →
    (writeGaussians np nc p l i a).weights (p + np * (i + d)) = (l.getD d default).weight := by
  intro l
  induction l with
  | nil => intro i a d hd _; simp at hd
  | cons g rest ih =>
    intro i a d hd hnp
    match d with
    | 0 =>
      show (writeGaussians np nc p rest (i + 1) _).weights (p + np * (i + 0)) = g.weight
      rw [writeGaussians_weights_ne np nc p rest (i + 1) _ _ (by
        intro d' hd'
        have h0 : np * (i + 0) = np * i := by ring
        have h1 : np * ((i + 1) + d') = np * i + np * (1 + d') := by ring
        have h2 : 0 < np * (1 + d') := Nat.mul_pos hnp (by omega)
        omega)]
      simp [Function.update_same]
    | d' + 1 =>
      show (writeGaussians np nc p rest (i + 1) _).weights (p + np * (i + (d' + 1)))
          = (rest.getD d' default).weight
      have harith : i + (d' + 1) = (i + 1) + d' := by omega
      rw [harith]
      exact ih (i + 1) _ d' (by simpa using hd) hnp

lemma writeGaussians_means_ne (np nc p : ℕ) : ∀ (l : List WeightedGaussian) (i : ℕ)
    (a : StateArrays) (q : ℕ),
    (∀ d < l.length, ∀ c < (l.getD d default).mean.length, q ≠ p + np * nc * (i + d) + np * c) →
    (writeGaussians np nc p l i a).means q = a.means q := by
  intro l
  induction l with
  | nil => intro i a q _; rfl
  | cons g rest ih =>
    intro i a q h
    show (writeGaussians np nc p rest (i + 1) _).means q = a.means q
    rw [ih (i + 1) _ q (by
      intro d hd c hc
      have hget : (rest.getD d default) = ((g :: rest).getD (d + 1) default) := by simp
      have := h (d + 1) (by simpa using Nat.succ_lt_succ hd) c (by rw [← hget] at *; exact hc)
      have harith : i + (d + 1) = (i + 1) + d := by omega
      rwa [harith] at this)]
    refine writeStrided_ne _ _ _ _ _ ?_
    intro c hc
    have := h 0 (by simp) c (by simpa using hc)
    simpa using this

lemma writeGaussians_means_read (np nc p : ℕ) : ∀ (l : List WeightedGaussian) (i : ℕ)
    (a : StateArrays) (d c : ℕ), d < l.length → c < (l.getD d default).mean.length →
    (∀ d' < l.length, (l.getD d' default).mean.length ≤ nc) → 0 < np →
    (writeGaussians np nc p l i a).means (p + np * nc * (i + d) + np * c)
      = (l.getD d default).mean.getD c 0 := by
  intro l
  induction l with
  | nil => intro i a d c hd _ _ _; simp at hd
  | cons g rest ih =>
    intro i a d c hd hc hbound hnp
    match d with
    | 0 =>
      show (writeGaussians np nc p rest (i + 1) _).means (p + np * nc * (i + 0) + np * c)
          = g.mean.getD c 0
      have hcnc : c < nc := by
        have := hbound 0 (by simp)
        simp at this hc
        omega
      rw [writeGaussians_means_ne np nc p rest (i + 1) _ _ (by
        intro d' hd' c' hc'
        have e1 : p + np * nc * (i + 0) + np * c = p + np * (nc * i + c) := by ring
        have e2 : p + np * nc * ((i + 1) + d') + np * c' = p + np * (nc * ((i + 1) + d') + c') := by
          ring
        rw [e1, e2]
        intro heq
        have hmul : np * (nc * i + c) = np * (nc * ((i + 1) + d') + c') := by omega
        have hargs := Nat.eq_of_mul_eq_mul_left hnp hmul
        have h3 : nc * ((i + 1) + d') = nc * i + nc * (1 + d') := by ring
        have h4 : nc * 1 ≤ nc * (1 + d') := Nat.mul_le_mul_left nc (by omega)
        have h5 : nc * 1 = nc := by ring
        omega)]
      have harith : p + np * nc * (i + 0) + np * c = (p + np * nc * i) + np * c := by ring
      rw [harith]
      exact writeStrided_get g.mean _ _ np c (by simpa using hc) hnp
    | d' + 1 =>
      show (writeGaussians np nc p rest (i + 1) _).means (p + np * nc * (i + (d' + 1)) + np * c)
          = (rest.getD d' default).mean.getD c 0
      have harith : i + (d' + 1) = (i + 1) + d' := by omega
      rw [harith]
      refine ih (i + 1) _ d' c (by simpa using hd) (by simpa using hc) ?_ hnp
      intro d'' hd''
      have := hbound (d'' + 1) (by simpa using Nat.succ_lt_succ hd'')
      simpa using this
lemma writeGaussians_variances_ne (np nc p : ℕ) : ∀ (l : List WeightedGaussian) (i : ℕ)
    (a : StateArrays) (q : ℕ),
    (∀ d < l.length, ∀ c < (l.getD d default).variance.length, q ≠ p + np * nc * (i + d) + np * c) →
    (writeGaussians np nc p l i a).variances q = a.variances q := by
  intro l
  induction l with
  | nil => intro i a q _; rfl
  | cons g rest ih =>
    intro i a q h
    show (writeGaussians np nc p rest (i + 1) _).variances q = a.variances q
    rw [ih (i + 1) _ q (by
      intro d hd c hc
      have hget : (rest.getD d default) = ((g :: rest).getD (d + 1) default) := by simp
      have := h (d + 1) (by simpa using Nat.succ_lt_succ hd) c (by rw [← hget] at *; exact hc)
      have harith : i + (d + 1) = (i + 1) + d := by omega
      rwa [harith] at this)]
    refine writeStrided_ne _ _ _ _ _ ?_
    intro c hc
    have := h 0 (by simp) c (by simpa using hc)
    simpa using this

lemma writeGaussians_variances_read (np nc p : ℕ) : ∀ (l : List WeightedGaussian) (i : ℕ)
    (a : StateArrays) (d c : ℕ), d < l.length → c < (l.getD d default).variance.length →
    (∀ d' < l.length, (l.getD d' default).variance.length ≤ nc) → 0 < np →
    (writeGaussians np nc p l i a).variances (p + np * nc * (i + d) + np * c)
      = (l.getD d default).variance.getD c 0 := by
  intro l
  induction l with
  | nil => intro i a d c hd _ _ _; simp at hd
  | cons g rest ih =>
    intro i a d c hd hc hbound hnp
    match d with
    | 0 =>
      show (writeGaussians np nc p rest (i + 1) _).variances (p + np * nc * (i + 0) + np * c)
          = g.variance.getD c 0
      have hcnc : c < nc := by
        have := hbound 0 (by simp)
        simp at this hc
        omega
      rw [writeGaussians_variances_ne np nc p rest (i + 1) _ _ (by
        intro d' hd' c' hc'
        have e1 : p + np * nc * (i + 0) + np * c = p + np * (nc * i + c) := by ring
        have e2 : p + np * nc * ((i + 1) + d') + np * c' = p + np * (nc * ((i + 1) + d') + c') := by
          ring
        rw [e1, e2]
        intro heq
        have hmul : np * (nc * i + c) = np * (nc * ((i + 1) + d') + c') := by omega
        have hargs := Nat.eq_of_mul_eq_mul_left hnp hmul
        have h3 : nc * ((i + 1) + d') = nc * i + nc * (1 + d') := by ring
        have h4 : nc * 1 ≤ nc * (1 + d') := Nat.mul_le_mul_left nc (by omega)
        have h5 : nc * 1 = nc := by ring
        omega)]
      have harith : p + np * nc * (i + 0) + np * c = (p + np * nc * i) + np * c := by ring
      rw [harith]
      exact writeStrided_get g.variance _ _ np c (by simpa using hc) hnp
    | d' + 1 =>
      show (writeGaussians np nc p rest (i + 1) _).variances (p + np * nc * (i + (d' + 1)) + np * c)
          = (rest.getD d' default).variance.getD c 0
      have harith : i + (d' + 1) = (i + 1) + d' := by omega
      rw [harith]
      refine ih (i + 1) _ d' c (by simpa using hd) (by simpa using hc) ?_ hnp
      intro d'' hd''
      have := hbound (d'' + 1) (by simpa using Nat.succ_lt_succ hd'')
      simpa using this

lemma map_range_getD {α : Type} (l : List α) (d : α) :
    (List.range l.length).map (fun i => l.getD i d) = l := by
  apply List.ext_getElem (by simp)
  intro i h1 h2
  simp only [List.getElem_map, List.getElem_range]
  rw [List.getD_eq_getElem?_getD, List.getElem?_eq_getElem h2]
  rfl

lemma getGMMStates_numActive_self (np nc p : ℕ) (gmm : GMM) (a : StateArrays) :
    (getGMMStates np nc p gmm a).numActive p = gmm.length := by
  unfold getGMMStates
  rw [writeGaussians_numActive]
  exact Function.update_same p gmm.length a.numActive

lemma getGMMStates_numActive_ne (np nc p : ℕ) (gmm : GMM) (a : StateArrays) (q : ℕ)
    (h : q ≠ p) : (getGMMStates np nc p gmm a).numActive q = a.numActive q := by
  unfold getGMMStates
  rw [writeGaussians_numActive]
  exact Function.update_noteq h _ _

lemma getGMMStates_weights_mod (np nc p : ℕ) (gmm : GMM) (a : StateArrays) (q : ℕ)
    (h : q % np ≠ p % np) : (getGMMStates np nc p gmm a).weights q = a.weights q := by
  unfold getGMMStates
  rw [writeGaussians_weights_mod np nc p gmm 0 _ q h]

lemma getGMMStates_means_mod (np nc p : ℕ) (gmm : GMM) (a : StateArrays) (q : ℕ)
    (h : q % np ≠ p % np) : (getGMMStates np nc p gmm a).means q = a.means q := by
  unfold getGMMStates
  rw [writeGaussians_means_mod np nc p gmm 0 _ q h]

lemma getGMMStates_variances_mod (np nc p : ℕ) (gmm : GMM) (a : StateArrays) (q : ℕ)
    (h : q % np ≠ p % np) : (getGMMStates np nc p gmm a).variances q = a.variances q := by
  unfold getGMMStates
  rw [writeGaussians_variances_mod np nc p gmm 0 _ q h]

lemma writePixels_numActive_frame (np nc : ℕ) : ∀ (l : List GMM) (ps : ℕ)
    (a : StateArrays) (q : ℕ), q < ps →
    (writePixels np nc l ps a).numActive q = a.numActive q := by
  intro l
  induction l with
  | nil => intro ps a q _; rfl
  | cons gmm rest ih =>
    intro ps a q h
    show (writePixels np nc rest (ps + 1) _).numActive q = a.numActive q
    rw [ih (ps + 1) _ q (by omega)]
    exact getGMMStates_numActive_ne np nc ps gmm a q (by omega)

lemma writePixels_weights_frame (np nc : ℕ) : ∀ (l : List GMM) (ps : ℕ)
    (a : StateArrays) (q : ℕ), q % np < ps → ps + l.length ≤ np →
    (writePixels np nc l ps a).weights q = a.weights q := by
  intro l
  induction l with
  | nil => intro ps a q _ _; rfl
  | cons gmm rest ih =>
    intro ps a q h hb
    show (writePixels np nc rest (ps + 1) _).weights q = a.weights q
    have hps : ps < np := by
      have : (gmm :: rest).length = rest.length + 1 := by simp
      omega
    rw [ih (ps + 1) _ q (by omega) (by simp at hb; omega)]
    refine getGMMStates_weights_mod np nc ps gmm a q ?_
    rw [Nat.mod_eq_of_lt hps]
    omega

lemma writePixels_means_frame (np nc : ℕ) : ∀ (l : List GMM) (ps : ℕ)
    (a : StateArrays) (q : ℕ), q % np < ps → ps + l.length ≤ np →
    (writePixels np nc l ps a).means q = a.means q := by
  intro l
  induction l with
  | nil => intro ps a q _ _; rfl
  | cons gmm rest ih =>
    intro ps a q h hb
    show (writePixels np nc rest (ps + 1) _).means q = a.means q
    have hps : ps < np := by
      have : (gmm :: rest).length = rest.length + 1 := by simp
      omega
    rw [ih (ps + 1) _ q (by omega) (by simp at hb; omega)]
    refine getGMMStates_means_mod np nc ps gmm a q ?_
    rw [Nat.mod_eq_of_lt hps]
    omega

lemma writePixels_variances_frame (np nc : ℕ) : ∀ (l : List GMM) (ps : ℕ)
    (a : StateArrays) (q : ℕ), q % np < ps → ps + l.length ≤ np →
    (writePixels np nc l ps a).variances q = a.variances q := by
  intro l
  induction l with
  | nil => intro ps a q _ _; rfl
  | cons gmm rest ih =>
    intro ps a q h hb
    show (writePixels np nc rest (ps + 1) _).variances q = a.variances q
    have hps : ps < np := by
      have : (gmm :: rest).length = rest.length + 1 := by simp
      omega
    rw [ih (ps + 1) _ q (by omega) (by simp at hb; omega)]
    refine getGMMStates_variances_mod np nc ps gmm a q ?_
    rw [Nat.mod_eq_of_lt hps]
    omega

lemma setGMMStates_congr (np nc p : ℕ) (A B : StateArrays)
    (hn : A.numActive p = B.numActive p)
    (hw : ∀ q, q % np = p % np → A.weights q = B.weights q)
    (hm : ∀ q, q % np = p % np → A.means q = B.means q)
    (hv : ∀ q, q % np = p % np → A.variances q = B.variances q) :
    setGMMStates np nc p A = setGMMStates np nc p B := by
  unfold setGMMStates
  rw [hn]
  apply List.map_congr_left
  intro g _
  unfold readGaussian
  simp only [WeightedGaussian.mk.injEq]
  refine ⟨hw _ (Nat.add_mul_mod_self_left p np g), ?_, ?_⟩
  · apply List.map_congr_left
    intro c _
    apply hm
    have harith : p + np * nc * g + np * c = p + np * (nc * g + c) := by ring
    rw [harith]
    exact Nat.add_mul_mod_self_left p np (nc * g + c)
  · apply List.map_congr_left
    intro c _
    apply hv
    have harith : p + np * nc * g + np * c = p + np * (nc * g + c) := by ring
    rw [harith]
    exact Nat.add_mul_mod_self_left p np (nc * g + c)

lemma getGMM_readback (np nc p : ℕ) (gmm : GMM) (a : StateArrays)
    (hp : p < np)
    (hwf : ∀ g ∈ gmm, g.mean.length = nc ∧ g.variance.length = nc) :
    setGMMStates np nc p (getGMMStates np nc p gmm a) = gmm := by
  have hnp : 0 < np := by omega
  have hmem : ∀ d, d < gmm.length → gmm.getD d default ∈ gmm := by
    intro d hd
    rw [List.getD_eq_getElem?_getD, List.getElem?_eq_getElem hd]
    exact List.getElem_mem hd
  have hA : getGMMStates np nc p gmm a = writeGaussians np nc p gmm 0
      { a with numActive := Function.update a.numActive p gmm.length } := rfl
  have key : ∀ d, d < gmm.length →
      readGaussian np nc p d (getGMMStates np nc p gmm a) = gmm.getD d default := by
    intro d hd
    have hwfd := hwf _ (hmem d hd)
    have hw : (getGMMStates np nc p gmm a).weights (p + np * d)
        = (gmm.getD d default).weight := by
      rw [hA]
      have := writeGaussians_weights_read np nc p gmm 0
        { a with numActive := Function.update a.numActive p gmm.length } d hd hnp
      simpa using this
    have hm : ∀ c, c < nc → (getGMMStates np nc p gmm a).means (p + np * nc * d + np * c)
        = (gmm.getD d default).mean.getD c 0 := by
      intro c hc
      rw [hA]
      have := writeGaussians_means_read np nc p gmm 0
        { a with numActive := Function.update a.numActive p gmm.length } d c hd
        (by rw [hwfd.1]; exact hc)
        (fun d' hd' => by rw [(hwf _ (hmem d' hd')).1])
        hnp
      simpa using this
    have hv : ∀ c, c < nc → (getGMMStates np nc p gmm a).variances (p + np * nc * d + np * c)
        = (gmm.getD d default).variance.getD c 0 := by
      intro c hc
      rw [hA]
      have := writeGaussians_variances_read np nc p gmm 0
        { a with numActive := Function.update a.numActive p gmm.length } d c hd
        (by rw [hwfd.2]; exact hc)
        (fun d' hd' => by rw [(hwf _ (hmem d' hd')).2])
        hnp
      simpa using this
    unfold readGaussian
    have heta : gmm.getD d default =
        ⟨(gmm.getD d default).weight, (gmm.getD d default).mean,
          (gmm.getD d default).variance⟩ := rfl
    rw [heta]
    simp only [WeightedGaussian.mk.injEq]
    refine ⟨hw, ?_, ?_⟩
    · have hmap : (List.range nc).map
          (fun c => (getGMMStates np nc p gmm a).means (p + np * nc * d + np * c))
          = (List.range nc).map (fun c => (gmm.getD d default).mean.getD c 0) :=
        List.map_congr_left (fun c hc => hm c (List.mem_range.mp hc))
      rw [hmap, ← hwfd.1, map_range_getD]
    · have hmap : (List.range nc).map
          (fun c => (getGMMStates np nc p gmm a).variances (p + np * nc * d + np * c))
          = (List.range nc).map (fun c => (gmm.getD d default).variance.getD c 0) :=
        List.map_congr_left (fun c hc => hv c (List.mem_range.mp hc))
      rw [hmap, ← hwfd.2, map_range_getD]
  unfold setGMMStates
  rw [getGMMStates_numActive_self]
  have hmap : (List.range gmm.length).map
      (fun g => readGaussian np nc p g (getGMMStates np nc p gmm a))
      = (List.range gmm.length).map (fun d => gmm.getD d default) :=
    List.map_congr_left (fun d hd => key d (List.mem_range.mp hd))
  rw [hmap, map_range_getD]

lemma writePixels_readback (np nc : ℕ) : ∀ (l : List GMM) (ps : ℕ) (a : StateArrays)
    (d : ℕ), d < l.length → ps + l.length ≤ np →
    (∀ gmm ∈ l, ∀ g ∈ gmm, g.mean.length = nc ∧ g.variance.length = nc) →
    setGMMStates np nc (ps + d) (writePixels np nc l ps a) = l.getD d [] := by
  intro l
  induction l with
  | nil => intro ps a d hd _ _; simp at hd
  | cons gmm rest ih =>
    intro ps a d hd hb hwf
    have hlen : (gmm :: rest).length = rest.length + 1 := by simp
    have hps : ps < np := by omega
    match d with
    | 0 =>
      show setGMMStates np nc (ps + 0)
          (writePixels np nc rest (ps + 1) (getGMMStates np nc ps gmm a)) = gmm
      rw [Nat.add_zero]
      rw [setGMMStates_congr np nc ps
        (writePixels np nc rest (ps + 1) (getGMMStates np nc ps gmm a))
        (getGMMStates np nc ps gmm a)
        (writePixels_numActive_frame np nc rest (ps + 1) _ ps (by omega))
        (fun q hq => writePixels_weights_frame np nc rest (ps + 1) _ q
          (by rw [hq, Nat.mod_eq_of_lt hps]; omega) (by omega))
        (fun q hq => writePixels_means_frame np nc rest (ps + 1) _ q
          (by rw [hq, Nat.mod_eq_of_lt hps]; omega) (by omega))
        (fun q hq => writePixels_variances_frame np nc rest (ps + 1) _ q
          (by rw [hq, Nat.mod_eq_of_lt hps]; omega) (by omega))]
      exact getGMM_readback np nc ps gmm a hps (hwf gmm (by simp))
    | d' + 1 =>
      show setGMMStates np nc (ps + (d' + 1))
          (writePixels np nc rest (ps + 1) (getGMMStates np nc ps gmm a)) = rest.getD d' []
      have harith : ps + (d' + 1) = (ps + 1) + d' := by omega
      rw [harith]
      exact ih (ps + 1) _ d' (by simpa using hd) (by omega)
        (fun g hg => hwf g (by simp [hg]))

/-- C8: state round-trip.  Exporting every pixel's model with
`getStatesImpl` (active count, weights, means, variances in the strided
pixel/channel/Gaussian layout) and importing the arrays with
`setStatesImpl` into the empty models of a freshly initialized detector of
the same `numPixels`/`numChannels` reproduces exactly the same per-pixel
mixture models, so every subsequent step on the two detectors is
identical. -/
theorem states_roundtrip (np nc : ℕ) (store : List GMM) (a : StateArrays)
    (hlen : store.length = np)
    (hwf : ∀ gmm ∈ store, ∀ g ∈ gmm, g.mean.length = nc ∧ g.variance.length = nc) :
    setStatesImpl np nc (getStatesImpl np nc store a) = store ∧
    (∀ (cfg : Config) (eps : ℚ) (image : ℕ → ℚ) (α : ℚ) (mask : List Bool)
        (ids : List ℕ),
      runPixels cfg eps image np nc α
          (setStatesImpl np nc (getStatesImpl np nc store a), mask) ids =
        runPixels cfg eps image np nc α (store, mask) ids) := by
  have hmain : setStatesImpl np nc (getStatesImpl np nc store a) = store := by
    subst hlen
    unfold setStatesImpl getStatesImpl
    have hmap : (List.range store.length).map
        (fun p => setGMMStates store.length nc p (writePixels store.length nc store 0 a))
        = (List.range store.length).map (fun p => store.getD p []) := by
      apply List.map_congr_left
      intro p hp
      have hp' : p < store.length := List.mem_range.mp hp
      have := writePixels_readback store.length nc store 0 a p hp' (by omega) hwf
      simpa using this
    rw [hmap, map_range_getD]
  exact ⟨hmain, fun cfg eps image α mask ids => by rw [hmain]⟩

/-- C8 witness: a two-pixel store (one one-component model, one empty)
round-trips through zero-initialized arrays. -/
theorem states_roundtrip_witness :
    setStatesImpl 2 1 (getStatesImpl 2 1 [[⟨1, [5], [2]⟩], []]
        ⟨fun _ => 0, fun _ => 0, fun _ => 0, fun _ => 0⟩) = [[⟨1, [5], [2]⟩], []] :=
  (states_roundtrip 2 1 [[⟨1, [5], [2]⟩], []]
    ⟨fun _ => 0, fun _ => 0, fun _ => 0, fun _ => 0⟩ (by simp)
    (by
      intro gmm hgmm g hg
      simp at hgmm
      rcases hgmm with h | h <;> subst h <;> simp at hg
      subst hg
      simp)).1

end FGD
